import Mathlib

/-!
Verification of the Git/AI pipeline of mykubeapp.

The Go sources (service/git_service.go, service/ai_service.go,
controller/git_controller.go, service/kube_service.go, model/*.go) are
shallowly embedded below.  Strings are modelled as `String`/`List Char`,
the Go `strings` helpers are re-implemented over `List Char`, fallible
calls return `Except String _`, and the external effects (kubectl apply,
git clone, HTTP handlers) are modelled by explicit oracle parameters and
by returning the argument vectors / call logs they would produce.
-/

namespace Mykube

/-- Go `strings.HasPrefix`: `hasPfx p s` is true when `p` heads `s`. -/
def hasPfx : List Char → List Char → Bool
  | [], _ => true
  | _ :: _, [] => false
  | a :: p, b :: s => a == b && hasPfx p s

/-- Go `strings.HasSuffix`, via reversal. -/
def hasSfx (p s : List Char) : Bool := hasPfx p.reverse s.reverse

/-- Go `strings.Contains`: `containsSub n h` is true when `n` occurs inside `h`. -/
def containsSub : List Char → List Char → Bool
  | n, [] => n.isEmpty
  | n, b :: t => hasPfx n (b :: t) || containsSub n t

/-- Go `strings.HasPrefix(s, pre)` on `String`. -/
def goHasPfx (s pre : String) : Bool := hasPfx pre.data s.data

/-- Go `strings.HasSuffix(s, suf)` on `String`. -/
def goHasSfx (s suf : String) : Bool := hasSfx suf.data s.data

/-- Go `strings.Contains(s, sub)` on `String`. -/
def goContains (s sub : String) : Bool := containsSub sub.data s.data

/-- ASCII case folding; the keyword and host literals the code lowers are
ASCII or Korean, and Unicode `strings.ToLower` acts as ASCII folding there. -/
def asciiLower (c : Char) : Char :=
  if 'A' ≤ c && c ≤ 'Z' then Char.ofNat (c.toNat + 32) else c

/-- Lower-case a character list. -/
def lowerL (s : List Char) : List Char := s.map asciiLower

/-- Go `strings.ToLower` on `String` (ASCII range). -/
def goToLower (s : String) : String := String.mk (lowerL s.data)

/-- White space recognised by Go `strings.Fields`/`strings.TrimSpace`
(ASCII range of `unicode.IsSpace`). -/
def isSpaceChar (c : Char) : Bool := c == ' ' || c == '\t' || c == '\n' || c == '\r'

/-- Splitter for Go `strings.Fields`: accumulate the current word (reversed). -/
def fieldsAux : List Char → List Char → List (List Char)
  | [], acc => if acc.isEmpty then [] else [acc.reverse]
  | c :: t, acc =>
    if isSpaceChar c then
      (if acc.isEmpty then fieldsAux t [] else acc.reverse :: fieldsAux t [])
    else fieldsAux t (c :: acc)

/-- Go `strings.Fields`: the white-space-delimited words of `s`. -/
def goFields (s : String) : List (List Char) := fieldsAux s.data []

/-- Go `strings.TrimSpace`. -/
def goTrimSpace (s : String) : String :=
  String.mk (((s.data.dropWhile isSpaceChar).reverse.dropWhile isSpaceChar).reverse)

theorem hasPfx_iff (p : List Char) : ∀ s, hasPfx p s = true ↔ ∃ t, s = p ++ t := by
  induction p with
  | nil =>
    intro s
    simp [hasPfx]
  | cons a p ih =>
    intro s
    cases s with
    | nil =>
      simp [hasPfx]
    | cons b s =>
      constructor
      · intro h
        simp only [hasPfx, Bool.and_eq_true, beq_iff_eq] at h
        rcases (ih s).1 h.2 with ⟨t, rfl⟩
        exact ⟨t, by rw [h.1]; rfl⟩
      · rintro ⟨t, ht⟩
        rw [List.cons_append] at ht
        cases ht
        simp only [hasPfx, Bool.and_eq_true, beq_iff_eq]
        exact ⟨by trivial, (ih _).2 ⟨t, rfl⟩⟩

theorem hasPfx_append_of (p s t : List Char) (h : hasPfx p s = true) :
    hasPfx p (s ++ t) = true := by
  rcases (hasPfx_iff p s).1 h with ⟨u, rfl⟩
  exact (hasPfx_iff p _).2 ⟨u ++ t, by rw [List.append_assoc]⟩

theorem hasPfx_self_append (p t : List Char) : hasPfx p (p ++ t) = true :=
  (hasPfx_iff p _).2 ⟨t, rfl⟩

theorem hasPfx_refl (p : List Char) : hasPfx p p = true :=
  (hasPfx_iff p p).2 ⟨[], by simp⟩

theorem hasPfx_length_le (p s : List Char) (h : hasPfx p s = true) :
    p.length ≤ s.length := by
  rcases (hasPfx_iff p s).1 h with ⟨u, rfl⟩
  simp

theorem hasPfx_eq_of_le (p s : List Char) (h : hasPfx p s = true)
    (hl : s.length ≤ p.length) : p = s := by
  rcases (hasPfx_iff p s).1 h with ⟨u, rfl⟩
  have hu : u = [] := by
    rw [List.length_append] at hl
    exact List.eq_nil_of_length_eq_zero (by omega)
  rw [hu, List.append_nil]

theorem hasSfx_append_self (p s : List Char) : hasSfx p (s ++ p) = true := by
  unfold hasSfx
  rw [List.reverse_append]
  exact hasPfx_self_append _ _

theorem hasSfx_length_le (p s : List Char) (h : hasSfx p s = true) :
    p.length ≤ s.length := by
  have := hasPfx_length_le _ _ h
  simpa using this

theorem hasPfx_append_split (n s t : List Char) (h : hasPfx n (s ++ t) = true) :
    hasPfx n s = true ∨
      (hasPfx s n = true ∧ hasPfx (n.drop s.length) t = true) := by
  induction s generalizing n with
  | nil =>
    refine Or.inr ⟨by simp [hasPfx], ?_⟩
    simpa using h
  | cons c s ih =>
    cases n with
    | nil => exact Or.inl (by simp [hasPfx])
    | cons a n' =>
      rw [List.cons_append] at h
      simp only [hasPfx, Bool.and_eq_true, beq_iff_eq] at h
      rcases ih n' h.2 with h1 | h2
      · exact Or.inl (by simp [hasPfx, h.1, h1])
      · refine Or.inr ⟨by simp [hasPfx, h.1.symm, h2.1], ?_⟩
        simpa [List.length_cons, List.drop_succ_cons] using h2.2

theorem containsSub_of_hasPfx (n s : List Char) (h : hasPfx n s = true) :
    containsSub n s = true := by
  cases s with
  | nil =>
    cases n with
    | nil => rfl
    | cons a t => simp [hasPfx] at h
  | cons b t => simp [containsSub, h]

theorem containsSub_of_sfx (n w s2 : List Char) (hp : hasPfx n s2 = true) :
    containsSub n (w ++ s2) = true := by
  induction w with
  | nil => simpa using containsSub_of_hasPfx n s2 hp
  | cons c w ih =>
    rw [List.cons_append]
    simp [containsSub, ih]

theorem containsSub_append_cases (n t : List Char) :
    ∀ s, containsSub n (s ++ t) = true →
      containsSub n t = true ∨ ∃ s2 w, w ++ s2 = s ∧ hasPfx n (s2 ++ t) = true := by
  intro s
  induction s with
  | nil =>
    intro h
    exact Or.inl (by simpa using h)
  | cons c s ih =>
    intro h
    rw [List.cons_append] at h
    simp only [containsSub, Bool.or_eq_true] at h
    rcases h with h | h
    · exact Or.inr ⟨c :: s, [], by simp, by simpa [List.cons_append] using h⟩
    · rcases ih h with h1 | ⟨s2, w, hw, hp⟩
      · exact Or.inl h1
      · exact Or.inr ⟨s2, c :: w, by rw [List.cons_append, hw], hp⟩

theorem containsSub_append_elim (n t : List Char)
    (ht : containsSub n t = false)
    (hk : ∀ k, k < n.length → hasPfx (n.drop k) t = false)
    (s : List Char) (h : containsSub n (s ++ t) = true) :
    containsSub n s = true := by
  rcases containsSub_append_cases n t s h with h1 | ⟨s2, w, hw, hp⟩
  · rw [ht] at h1
    exact absurd h1 (by simp)
  · rcases hasPfx_append_split n s2 t hp with h2 | ⟨h3, h4⟩
    · rw [← hw]
      exact containsSub_of_sfx n w s2 h2
    · by_cases hlen : s2.length < n.length
      · rw [hk s2.length hlen] at h4
        exact absurd h4 (by simp)
      · have hs2 : s2 = n :=
          hasPfx_eq_of_le s2 n h3 (Nat.le_of_not_lt hlen)
        rw [← hw]
        exact containsSub_of_sfx n w s2 (hs2 ▸ hasPfx_refl n)

theorem containsSub_append_keep_false (n u t : List Char)
    (ht : containsSub n t = false)
    (hk : ∀ k, k < n.length → hasPfx (n.drop k) t = false)
    (hu : containsSub n u = false) : containsSub n (u ++ t) = false := by
  cases h : containsSub n (u ++ t) with
  | false => rfl
  | true =>
    have := containsSub_append_elim n t ht hk u h
    rw [hu] at this
    exact absurd this (by simp)

/-! ### URL normalization (ai_service.go 569-581 and git_controller.go 598-612) -/

namespace AIService

/-- ai_service.go 571-574: prepend `https://` when neither scheme heads the URL. -/
def addSchemeStep (repoURL : List Char) : List Char :=
  if !(hasPfx ("http://".data) repoURL) && !(hasPfx ("https://".data) repoURL) then
    "https://".data ++ repoURL
  else repoURL

/-- ai_service.go 576-579: append `.git` when the URL does not already end in it. -/
def addGitStep (repoURL : List Char) : List Char :=
  if !(hasSfx (".git".data) repoURL) then repoURL ++ ".git".data else repoURL

/-- `AIService.normalizeRepoURL` (ai_service.go 569-581) on character lists. -/
def normalizeRepoURLCore (repoURL : List Char) : List Char :=
  addGitStep (addSchemeStep repoURL)

/-- `AIService.normalizeRepoURL` on `String`. -/
def normalizeRepoURL (repoURL : String) : String :=
  String.mk (normalizeRepoURLCore repoURL.data)

end AIService

namespace GitController

/-- git_controller.go 600-605: prepend `https://` only when no scheme heads the
URL and it mentions one of the three recognized hosts. -/
def addSchemeStep (repoURL : List Char) : List Char :=
  if !(hasPfx ("http://".data) repoURL) && !(hasPfx ("https://".data) repoURL) then
    (if containsSub ("github.com".data) repoURL || containsSub ("gitlab.com".data) repoURL ||
        containsSub ("bitbucket.org".data) repoURL then
      "https://".data ++ repoURL
    else repoURL)
  else repoURL

/-- git_controller.go 607-609: append `.git` when absent. -/
def addGitStep (repoURL : List Char) : List Char :=
  if !(hasSfx (".git".data) repoURL) then repoURL ++ ".git".data else repoURL

/-- `GitController.normalizeRepoURL` (git_controller.go 598-612) on character lists. -/
def normalizeRepoURLCore (repoURL : List Char) : List Char :=
  addGitStep (addSchemeStep repoURL)

/-- `GitController.normalizeRepoURL` on `String`. -/
def normalizeRepoURL (repoURL : String) : String :=
  String.mk (normalizeRepoURLCore repoURL.data)

end GitController

theorem AIService.addGitStep_sfx (r : List Char) :
    hasSfx (".git".data) (AIService.addGitStep r) = true := by
  unfold AIService.addGitStep
  by_cases h : hasSfx (".git".data) r = true
  · simp [h]
  · simp only [Bool.not_eq_true] at h
    simp [h, hasSfx_append_self]

theorem AIService.addGitStep_of_sfx (r : List Char)
    (h : hasSfx (".git".data) r = true) : AIService.addGitStep r = r := by
  simp [AIService.addGitStep, h]

theorem AIService.addGitStep_pfx (p r : List Char) (h : hasPfx p r = true) :
    hasPfx p (AIService.addGitStep r) = true := by
  unfold AIService.addGitStep
  split
  · exact hasPfx_append_of _ _ _ h
  · exact h

theorem AIService.addSchemeStep_pfx (u : List Char) :
    hasPfx ("http://".data) (AIService.addSchemeStep u) = true ∨
      hasPfx ("https://".data) (AIService.addSchemeStep u) = true := by
  unfold AIService.addSchemeStep
  by_cases h1 : hasPfx ("http://".data) u = true
  · simp [h1]
  · by_cases h2 : hasPfx ("https://".data) u = true
    · simp [h2]
    · simp only [Bool.not_eq_true] at h1 h2
      rw [if_pos (by simp [h1, h2])]
      exact Or.inr (hasPfx_self_append _ _)

theorem AIService.addSchemeStep_of_pfx (u : List Char)
    (h : hasPfx ("http://".data) u = true ∨ hasPfx ("https://".data) u = true) :
    AIService.addSchemeStep u = u := by
  unfold AIService.addSchemeStep
  rcases h with h | h <;> simp [h]

theorem AIService.normalizeRepoURLCore_idem (u : List Char) :
    AIService.normalizeRepoURLCore (AIService.normalizeRepoURLCore u) =
      AIService.normalizeRepoURLCore u := by
  have hpfx : hasPfx ("http://".data) (AIService.normalizeRepoURLCore u) = true ∨
      hasPfx ("https://".data) (AIService.normalizeRepoURLCore u) = true := by
    rcases AIService.addSchemeStep_pfx u with h | h
    · exact Or.inl (AIService.addGitStep_pfx _ _ h)
    · exact Or.inr (AIService.addGitStep_pfx _ _ h)
  calc AIService.normalizeRepoURLCore (AIService.normalizeRepoURLCore u)
      = AIService.addGitStep (AIService.normalizeRepoURLCore u) := by
        rw [AIService.normalizeRepoURLCore, AIService.addSchemeStep_of_pfx _ hpfx]
    _ = AIService.normalizeRepoURLCore u :=
        AIService.addGitStep_of_sfx _ (AIService.addGitStep_sfx _)

theorem GitController.gcAddGitStep_sfx (r : List Char) :
    hasSfx (".git".data) (GitController.addGitStep r) = true := by
  unfold GitController.addGitStep
  by_cases h : hasSfx (".git".data) r = true
  · simp [h]
  · simp only [Bool.not_eq_true] at h
    simp [h, hasSfx_append_self]

theorem GitController.gcAddGitStep_of_sfx (r : List Char)
    (h : hasSfx (".git".data) r = true) : GitController.addGitStep r = r := by
  simp [GitController.addGitStep, h]

theorem GitController.gcAddGitStep_pfx (p r : List Char) (h : hasPfx p r = true) :
    hasPfx p (GitController.addGitStep r) = true := by
  unfold GitController.addGitStep
  split
  · exact hasPfx_append_of _ _ _ h
  · exact h

/-- Appending `.git` cannot create an occurrence of any of the three
recognized host names (each host name overlaps neither `.git` nor its border). -/
theorem GitController.host_keep_false (n u : List Char)
    (ht : containsSub n (".git".data) = false)
    (hk : ∀ k, k < n.length → hasPfx (n.drop k) (".git".data) = false)
    (hu : containsSub n u = false) :
    containsSub n (GitController.addGitStep u) = false := by
  unfold GitController.addGitStep
  split
  · exact containsSub_append_keep_false n u _ ht hk hu
  · exact hu

theorem GitController.gcNormalizeRepoURLCore_idem (u : List Char) :
    GitController.normalizeRepoURLCore (GitController.normalizeRepoURLCore u) =
      GitController.normalizeRepoURLCore u := by
  have hstep : GitController.addSchemeStep (GitController.normalizeRepoURLCore u) =
      GitController.normalizeRepoURLCore u := by
    by_cases h1 : hasPfx ("http://".data) u = true
    · have : hasPfx ("http://".data) (GitController.normalizeRepoURLCore u) = true := by
        unfold GitController.normalizeRepoURLCore
        apply GitController.gcAddGitStep_pfx
        unfold GitController.addSchemeStep
        simp [h1]
      unfold GitController.addSchemeStep
      simp [this]
    · by_cases h2 : hasPfx ("https://".data) u = true
      · have : hasPfx ("https://".data) (GitController.normalizeRepoURLCore u) = true := by
          unfold GitController.normalizeRepoURLCore
          apply GitController.gcAddGitStep_pfx
          unfold GitController.addSchemeStep
          simp [h2]
        unfold GitController.addSchemeStep
        simp [this]
      · simp only [Bool.not_eq_true] at h1 h2
        by_cases hh : (containsSub ("github.com".data) u ||
            containsSub ("gitlab.com".data) u ||
            containsSub ("bitbucket.org".data) u) = true
        · have : hasPfx ("https://".data) (GitController.normalizeRepoURLCore u) = true := by
            unfold GitController.normalizeRepoURLCore
            apply GitController.gcAddGitStep_pfx
            unfold GitController.addSchemeStep
            rw [if_pos (by simp [h1, h2]), if_pos hh]
            exact hasPfx_self_append _ _
          unfold GitController.addSchemeStep
          simp [this]
        · simp only [Bool.or_eq_true, not_or, Bool.not_eq_true] at hh
          obtain ⟨⟨hg1, hg2⟩, hg3⟩ := hh
          have hu : GitController.normalizeRepoURLCore u = GitController.addGitStep u := by
            unfold GitController.normalizeRepoURLCore GitController.addSchemeStep
            simp [h1, h2, hg1, hg2, hg3]
          have hc1 : containsSub ("github.com".data) (GitController.normalizeRepoURLCore u) = false := by
            rw [hu]
            exact GitController.host_keep_false _ _ (by decide) (by decide) hg1
          have hc2 : containsSub ("gitlab.com".data) (GitController.normalizeRepoURLCore u) = false := by
            rw [hu]
            exact GitController.host_keep_false _ _ (by decide) (by decide) hg2
          have hc3 : containsSub ("bitbucket.org".data) (GitController.normalizeRepoURLCore u) = false := by
            rw [hu]
            exact GitController.host_keep_false _ _ (by decide) (by decide) hg3
          unfold GitController.addSchemeStep
          split
          · simp [hc1, hc2, hc3]
          · rfl
  calc GitController.normalizeRepoURLCore (GitController.normalizeRepoURLCore u)
      = GitController.addGitStep (GitController.normalizeRepoURLCore u) := by
        rw [GitController.normalizeRepoURLCore, hstep]
    _ = GitController.normalizeRepoURLCore u :=
        GitController.gcAddGitStep_of_sfx _ (GitController.gcAddGitStep_sfx _)

/-- C6: repository-URL normalization is idempotent — applying `normalizeRepoURL`
twice yields the same string as applying it once, for both the `AIService`
implementation (ai_service.go 569-581) and the `GitController` implementation
(git_controller.go 598-612). -/
theorem c6_normalizeRepoURL_idem :
    (∀ u : String, AIService.normalizeRepoURL (AIService.normalizeRepoURL u) =
      AIService.normalizeRepoURL u) ∧
    (∀ u : String, GitController.normalizeRepoURL (GitController.normalizeRepoURL u) =
      GitController.normalizeRepoURL u) := by
  constructor
  · intro u
    unfold AIService.normalizeRepoURL
    exact congrArg String.mk (AIService.normalizeRepoURLCore_idem u.data)
  · intro u
    unfold GitController.normalizeRepoURL
    exact congrArg String.mk (GitController.gcNormalizeRepoURLCore_idem u.data)

/-! ### Data model (model/git_model.go, model/kube_model.go) -/

/-- `model.GitYamlFile`. -/
structure GitYamlFile where
  path : String
  fullPath : String
  content : String
  size : Nat
  isKubernetes : Bool
  deriving DecidableEq, Repr

/-- `model.ApplyYamlRequest` (`Namespace` is rendered as `nspace`). -/
structure ApplyYamlRequest where
  yamlContent : String
  nspace : String
  dryRun : Bool
  deriving DecidableEq, Repr

/-- `model.ApplyYamlResult`. -/
structure ApplyYamlResult where
  output : String
  appliedTime : String
  resources : List String
  dryRun : Bool
  deriving DecidableEq, Repr

/-- `model.GitFileApplyResult`. -/
structure GitFileApplyResult where
  filePath : String
  success : Bool
  error : String
  output : String
  resources : List String
  deriving DecidableEq, Repr

/-- `model.GitApplyResult`. -/
structure GitApplyResult where
  totalFiles : Nat
  successFiles : Nat
  failedFiles : Nat
  appliedTime : String
  results : List GitFileApplyResult
  allResources : List String
  dryRun : Bool
  deriving DecidableEq, Repr

/-! ### removeDuplicates (git_service.go 324-336) and the inline dedup loop of
KubeService.extractResourcesFromOutput -/

namespace GitService

/-- The loop of `removeDuplicates`: `seen` is the membership view of the Go
`map[string]bool`, the returned list is the accumulated `result`. -/
def rdLoop (seen : List String) : List String → List String
  | [] => []
  | item :: rest =>
    if seen.contains item then rdLoop seen rest
    else item :: rdLoop (item :: seen) rest

/-- `GitService.removeDuplicates` (git_service.go 324-336). -/
def removeDuplicates (items : List String) : List String := rdLoop [] items

end GitService

namespace KubeService

/-- The inline dedup loop at the end of `KubeService.extractResourcesFromOutput`
(kube_service.go): same seen-map algorithm, applied to the regex matches
already extracted from the kubectl output. -/
def uniqueLoop (seen : List String) : List String → List String
  | [] => []
  | resource :: rest =>
    if seen.contains resource then uniqueLoop seen rest
    else resource :: uniqueLoop (resource :: seen) rest

/-- The dedup stage of `KubeService.extractResourcesFromOutput`, applied to the
list of captured resource identifiers (the regex scan is kept abstract). -/
def extractUniqueResources (resources : List String) : List String :=
  uniqueLoop [] resources

end KubeService

/-- Spec-side definition, for the refinement comparison only.  From the spec's
words: "`distinctResourceIdentifiers` contains no duplicates and preserves
first-successful-occurrence order" — keep the first occurrence of each element,
erase every later one. -/
def specDedupFirstSeen : List String → List String
  | [] => []
  | x :: rest => x :: (specDedupFirstSeen rest).filter (fun y => !(y == x))

theorem specDedupFirstSeen_subset (a : String) :
    ∀ l, a ∈ specDedupFirstSeen l → a ∈ l := by
  intro l
  induction l with
  | nil => simp [specDedupFirstSeen]
  | cons x rest ih =>
    intro h
    simp only [specDedupFirstSeen, List.mem_cons] at h ⊢
    rcases h with h | h
    · exact Or.inl h
    · exact Or.inr (ih (List.mem_of_mem_filter h))

theorem specDedupFirstSeen_nodup : ∀ l, (specDedupFirstSeen l).Nodup := by
  intro l
  induction l with
  | nil => simp [specDedupFirstSeen]
  | cons x rest ih =>
    simp only [specDedupFirstSeen, List.nodup_cons]
    constructor
    · intro hmem
      have := List.of_mem_filter hmem
      simp at this
    · exact ih.filter _

theorem specDedupFirstSeen_sublist : ∀ l, (specDedupFirstSeen l).Sublist l := by
  intro l
  induction l with
  | nil => simp [specDedupFirstSeen]
  | cons x rest ih =>
    simp only [specDedupFirstSeen]
    exact ((List.filter_sublist _).trans ih).cons₂ x

theorem GitService.rdLoop_spec :
    ∀ (l seen : List String),
      GitService.rdLoop seen l = (specDedupFirstSeen l).filter (fun y => !(seen.contains y)) := by
  intro l
  induction l with
  | nil => intro seen; simp [GitService.rdLoop, specDedupFirstSeen]
  | cons x rest ih =>
    intro seen
    by_cases hx : seen.contains x = true
    · rw [GitService.rdLoop, if_pos hx, ih seen]
      simp only [specDedupFirstSeen, List.filter_cons, hx, Bool.not_true]
      rw [if_neg (by simp), List.filter_filter]
      apply List.filter_congr
      intro a _
      by_cases ha : a = x
      · subst ha
        have hmem : a ∈ seen := by simpa using hx
        simp [hmem]
      · simp [ha]
    · rw [GitService.rdLoop, if_neg hx, ih (x :: seen)]
      simp only [Bool.not_eq_true] at hx
      simp only [specDedupFirstSeen, List.filter_cons, hx, Bool.not_false]
      rw [if_pos (by simp), List.filter_filter]
      congr 1
      apply List.filter_congr
      intro a _
      have hmem : x ∉ seen := by simpa using hx
      by_cases ha : a = x
      · subst ha; simp [hmem]
      · simp [ha, hmem]

theorem GitService.removeDuplicates_eq_spec (l : List String) :
    GitService.removeDuplicates l = specDedupFirstSeen l := by
  rw [GitService.removeDuplicates, GitService.rdLoop_spec l []]
  have hp : (fun y : String => !(List.contains ([] : List String) y)) =
      fun _ : String => true := by
    funext y; rfl
  rw [hp, List.filter_true]

theorem KubeService.uniqueLoop_eq_rdLoop :
    ∀ (l seen : List String), KubeService.uniqueLoop seen l = GitService.rdLoop seen l := by
  intro l
  induction l with
  | nil => intro seen; rfl
  | cons x rest ih =>
    intro seen
    rw [KubeService.uniqueLoop, GitService.rdLoop]
    by_cases hx : seen.contains x = true
    · rw [if_pos hx, if_pos hx, ih]
    · rw [if_neg hx, if_neg hx, ih]

/-! ### ApplyYamlFromGit (git_service.go 175-226) -/

namespace GitService

/-- Loop state of `ApplyYamlFromGit`: the accumulated `results`,
`allResources` and `successCount` locals. -/
structure ApplyLoopState where
  results : List GitFileApplyResult
  allResources : List String
  successCount : Nat
  deriving Repr

/-- git_service.go 186-190: build the `ApplyYamlRequest` for one file. -/
def mkApplyRequest (nspace : String) (dryRun : Bool) (yamlFile : GitYamlFile) :
    ApplyYamlRequest :=
  { yamlContent := yamlFile.content, nspace := nspace, dryRun := dryRun }

/-- One iteration of the loop of `ApplyYamlFromGit` (git_service.go 182-212):
`applyYaml` is the `KubeService.ApplyYaml` call, kept as an oracle. -/
def applyStep (applyYaml : ApplyYamlRequest → Except String ApplyYamlResult)
    (nspace : String) (dryRun : Bool)
    (st : ApplyLoopState) (yamlFile : GitYamlFile) : ApplyLoopState :=
  match applyYaml (mkApplyRequest nspace dryRun yamlFile) with
  | .error e =>
    { st with results := st.results ++
        [{ filePath := yamlFile.path, success := false, error := e,
           output := "", resources := [] }] }
  | .ok applyResult =>
    { results := st.results ++
        [{ filePath := yamlFile.path, success := true, error := "",
           output := applyResult.output, resources := applyResult.resources }],
      allResources := st.allResources ++ applyResult.resources,
      successCount := st.successCount + 1 }

/-- `GitService.ApplyYamlFromGit` (git_service.go 175-226).  The Go function
returns `(*GitApplyResult, error)`; the embedding mirrors its single
`return result, nil` with `Except.ok`.  `now` stands for the formatted
`time.Now()` string. -/
def applyYamlFromGit (applyYaml : ApplyYamlRequest → Except String ApplyYamlResult)
    (now : String) (yamlFiles : List GitYamlFile) (nspace : String) (dryRun : Bool) :
    Except String GitApplyResult :=
  let st := yamlFiles.foldl (applyStep applyYaml nspace dryRun)
    { results := [], allResources := [], successCount := 0 }
  .ok { totalFiles := yamlFiles.length,
        successFiles := st.successCount,
        failedFiles := yamlFiles.length - st.successCount,
        appliedTime := now,
        results := st.results,
        allResources := removeDuplicates st.allResources,
        dryRun := dryRun }

/-- The per-file result the loop records for one artifact. -/
def fileOutcome (applyYaml : ApplyYamlRequest → Except String ApplyYamlResult)
    (nspace : String) (dryRun : Bool) (yamlFile : GitYamlFile) : GitFileApplyResult :=
  match applyYaml (mkApplyRequest nspace dryRun yamlFile) with
  | .error e =>
    { filePath := yamlFile.path, success := false, error := e,
      output := "", resources := [] }
  | .ok applyResult =>
    { filePath := yamlFile.path, success := true, error := "",
      output := applyResult.output, resources := applyResult.resources }

/-- The resources a file contributes to `allResources`: its apply result's
resources when the apply succeeded, nothing when it failed. -/
def okResources (applyYaml : ApplyYamlRequest → Except String ApplyYamlResult)
    (nspace : String) (dryRun : Bool) (yamlFile : GitYamlFile) : List String :=
  match applyYaml (mkApplyRequest nspace dryRun yamlFile) with
  | .error _ => []
  | .ok applyResult => applyResult.resources

/-- Whether the apply call for a file succeeded. -/
def applyOk (applyYaml : ApplyYamlRequest → Except String ApplyYamlResult)
    (nspace : String) (dryRun : Bool) (yamlFile : GitYamlFile) : Bool :=
  match applyYaml (mkApplyRequest nspace dryRun yamlFile) with
  | .error _ => false
  | .ok _ => true

theorem applyFold_spec (applyYaml : ApplyYamlRequest → Except String ApplyYamlResult)
    (nspace : String) (dryRun : Bool) :
    ∀ (yamlFiles : List GitYamlFile) (st : ApplyLoopState),
      yamlFiles.foldl (applyStep applyYaml nspace dryRun) st =
        { results := st.results ++ yamlFiles.map (fileOutcome applyYaml nspace dryRun),
          allResources := st.allResources ++
            (yamlFiles.map (okResources applyYaml nspace dryRun)).flatten,
          successCount := st.successCount +
            yamlFiles.countP (applyOk applyYaml nspace dryRun) } := by
  intro yamlFiles
  induction yamlFiles with
  | nil => intro st; simp
  | cons f rest ih =>
    intro st
    rw [List.foldl_cons, ih]
    cases h : applyYaml (mkApplyRequest nspace dryRun f) with
    | error e =>
      simp only [applyStep, h, fileOutcome, okResources, applyOk, List.map_cons,
        List.flatten_cons, List.countP_cons, List.cons_append]
      congr 1
      all_goals simp [List.append_assoc]
    | ok r =>
      simp only [applyStep, h, fileOutcome, okResources, applyOk, List.map_cons,
        List.flatten_cons, List.countP_cons, List.cons_append]
      congr 1
      · simp [List.append_assoc]
      · simp [List.append_assoc]
      · simp only [if_pos trivial]
        omega

end GitService

/-- C1: for every list of artifacts (including the empty list and lists where
every artifact fails), `ApplyYamlFromGit` returns an aggregate result with
`SuccessFiles + FailedFiles = TotalFiles` and `TotalFiles` equal to the length
of the input list. -/
theorem c1_aggregate_counts
    (applyYaml : ApplyYamlRequest → Except String ApplyYamlResult)
    (now : String) (yamlFiles : List GitYamlFile) (nspace : String) (dryRun : Bool) :
    ∃ r, GitService.applyYamlFromGit applyYaml now yamlFiles nspace dryRun = .ok r ∧
      r.successFiles + r.failedFiles = r.totalFiles ∧
      r.totalFiles = yamlFiles.length := by
  refine ⟨_, rfl, ?_, rfl⟩
  simp only [GitService.applyYamlFromGit, GitService.applyFold_spec]
  have hle : yamlFiles.countP (GitService.applyOk applyYaml nspace dryRun) ≤
      yamlFiles.length := List.countP_le_length _
  simp only [Nat.zero_add]
  omega

/-- C2: per-artifact apply failures are recorded as data (`Success=false`,
error text in `Error`), the loop continues over all artifacts, and the
aggregate operation itself never returns an error. -/
theorem c2_failure_is_data :
    (∀ (applyYaml : ApplyYamlRequest → Except String ApplyYamlResult)
        (now : String) (yamlFiles : List GitYamlFile) (nspace : String) (dryRun : Bool),
      ∃ r, GitService.applyYamlFromGit applyYaml now yamlFiles nspace dryRun = .ok r ∧
        r.results = yamlFiles.map (GitService.fileOutcome applyYaml nspace dryRun) ∧
        r.results.length = yamlFiles.length) ∧
    (∀ (applyYaml : ApplyYamlRequest → Except String ApplyYamlResult)
        (nspace : String) (dryRun : Bool) (yamlFile : GitYamlFile) (e : String),
      applyYaml (GitService.mkApplyRequest nspace dryRun yamlFile) = .error e →
        GitService.fileOutcome applyYaml nspace dryRun yamlFile =
          { filePath := yamlFile.path, success := false, error := e,
            output := "", resources := [] }) := by
  constructor
  · intro applyYaml now yamlFiles nspace dryRun
    refine ⟨_, rfl, ?_, ?_⟩
    · simp only [GitService.applyYamlFromGit, GitService.applyFold_spec]
      simp
    · simp only [GitService.applyYamlFromGit, GitService.applyFold_spec]
      simp
  · intro applyYaml nspace dryRun yamlFile e h
    unfold GitService.fileOutcome
    rw [h]

/-- Concrete apply oracle for the C2 witness: fails exactly on content `bad`. -/
def witApply : ApplyYamlRequest → Except String ApplyYamlResult :=
  fun request =>
    if request.yamlContent == "bad" then .error "boom"
    else .ok { output := "service/x created", appliedTime := "t",
               resources := ["service/x"], dryRun := false }

/-- Concrete artifact whose apply succeeds. -/
def witGood : GitYamlFile :=
  { path := "good.yaml", fullPath := "/w/good.yaml", content := "ok",
    size := 2, isKubernetes := true }

/-- Concrete artifact whose apply fails. -/
def witBad : GitYamlFile :=
  { path := "bad.yaml", fullPath := "/w/bad.yaml", content := "bad",
    size := 3, isKubernetes := true }

theorem c2_failure_is_data_witness :
    (∃ r, GitService.applyYamlFromGit witApply "t" [witGood, witBad] "ns" false = .ok r ∧
      r.results = [witGood, witBad].map (GitService.fileOutcome witApply "ns" false) ∧
      r.results.length = [witGood, witBad].length) ∧
    GitService.fileOutcome witApply "ns" false witBad =
      { filePath := "bad.yaml", success := false, error := "boom",
        output := "", resources := [] } :=
  ⟨c2_failure_is_data.1 witApply "t" [witGood, witBad] "ns" false,
   c2_failure_is_data.2 witApply "ns" false witBad "boom" rfl⟩

/-- C5: `AllResources` is the deduplication, in first-occurrence order, of the
concatenated resource lists of the successful per-artifact outcomes only;
`removeDuplicates` (and the identical inline dedup of
`extractResourcesFromOutput`) equals the keep-first-occurrence function, so the
result has no duplicates and preserves first-seen order. -/
theorem c5_allResources_dedup :
    (∀ (applyYaml : ApplyYamlRequest → Except String ApplyYamlResult)
        (now : String) (yamlFiles : List GitYamlFile) (nspace : String) (dryRun : Bool),
      ∃ r, GitService.applyYamlFromGit applyYaml now yamlFiles nspace dryRun = .ok r ∧
        r.allResources = GitService.removeDuplicates
          ((yamlFiles.map (GitService.okResources applyYaml nspace dryRun)).flatten)) ∧
    (∀ l, GitService.removeDuplicates l = specDedupFirstSeen l) ∧
    (∀ l, (GitService.removeDuplicates l).Nodup) ∧
    (∀ l, (GitService.removeDuplicates l).Sublist l) ∧
    (∀ resources, KubeService.extractUniqueResources resources = specDedupFirstSeen resources) := by
  refine ⟨?_, GitService.removeDuplicates_eq_spec, ?_, ?_, ?_⟩
  · intro applyYaml now yamlFiles nspace dryRun
    refine ⟨_, rfl, ?_⟩
    simp only [GitService.applyYamlFromGit, GitService.applyFold_spec]
    simp
  · intro l
    rw [GitService.removeDuplicates_eq_spec]
    exact specDedupFirstSeen_nodup l
  · intro l
    rw [GitService.removeDuplicates_eq_spec]
    exact specDedupFirstSeen_sublist l
  · intro resources
    rw [KubeService.extractUniqueResources, KubeService.uniqueLoop_eq_rdLoop]
    exact GitService.removeDuplicates_eq_spec resources

/-! ### isKubernetesYaml, isYamlFile, CloneRepository args, GetSpecificYamlFile
(git_service.go) -/

/-- Go `filepath.Ext` on a base name: the suffix starting at the final dot. -/
def extList : List Char → List Char
  | [] => []
  | c :: rest =>
    let r := extList rest
    if !r.isEmpty then r else if c == '.' then c :: rest else []

/-- Go `filepath.Ext` on `String`. -/
def pathExt (s : String) : String := String.mk (extList s.data)

namespace GitService

/-- git_service.go 294-297: the two required textual markers. -/
def requiredFields : List String := ["apiVersion:", "kind:"]

/-- git_service.go 306-312: the fixed allow-list of recognized kind names. -/
def k8sKinds : List String :=
  ["Pod", "Service", "Deployment", "ConfigMap", "Secret",
   "Ingress", "PersistentVolume", "PersistentVolumeClaim",
   "ServiceAccount", "Role", "RoleBinding", "ClusterRole",
   "ClusterRoleBinding", "Namespace", "DaemonSet", "StatefulSet",
   "Job", "CronJob", "HorizontalPodAutoscaler", "NetworkPolicy"]

/-- `GitService.isKubernetesYaml` (git_service.go 292-321): both required
fields must occur, and then some `"kind: " ++ kind` must occur. -/
def isKubernetesYaml (content : String) : Bool :=
  if requiredFields.all (fun field => goContains content field) then
    k8sKinds.any (fun kind => goContains content ("kind: " ++ kind))
  else false

/-- git_service.go 52-61: the argument vector of the `git clone` invocation of
`CloneRepository`. `-b branch` is added only for a branch that is neither
empty nor `main` nor `master`; `--depth 1` is always added. -/
def gitCloneArgs (repoURL branch cloneDir : String) : List String :=
  let args : List String := ["clone"]
  let args :=
    if branch != "" && branch != "main" && branch != "master" then
      args ++ ["-b", branch]
    else args
  args ++ ["--depth", "1", repoURL, cloneDir]

/-- `GitService.isYamlFile` (git_service.go 286-289). -/
def isYamlFile (filename : String) : Bool :=
  let ext := goToLower (pathExt filename)
  ext == ".yaml" || ext == ".yml"

end GitService

/-- Go `strings.EqualFold` (ASCII folding; the compared names here are ASCII). -/
def goEqualFold (a b : String) : Bool := lowerL a.data == lowerL b.data

/-- One regular file met by the `filepath.Walk` of `GetSpecificYamlFile`, in
walk order (directories and the skipped `.git` tree are not listed). -/
structure WalkEntry where
  name : String
  relPath : String
  fullPath : String
  content : String
  size : Nat
  deriving DecidableEq, Repr

namespace GitService

/-- `GitService.GetSpecificYamlFile` (git_service.go 125-172): walk the
workspace files in order, stop at the first one whose base name equals the
requested filename case-insensitively, and return it with the classifier
verdict recorded in `isKubernetes`. The Go early stop via the sentinel
`error("found")` is rendered as first-match recursion. -/
def getSpecificYamlFile (files : List WalkEntry) (filename : String) :
    Option GitYamlFile :=
  match files with
  | [] => none
  | info :: rest =>
    if goEqualFold info.name filename then
      some { path := info.relPath, fullPath := info.fullPath,
             content := info.content, size := info.size,
             isKubernetes := isKubernetesYaml info.content }
    else getSpecificYamlFile rest filename

end GitService

/-- C4: the classifier returns true exactly when the content contains
`apiVersion:`, contains `kind:`, and contains `kind: K` for some `K` in the
fixed allow-list; in particular text with `apiVersion: v1` and the
unrecognized `kind: Widget` is rejected. -/
theorem c4_isKubernetesYaml_iff :
    (∀ content : String,
      GitService.isKubernetesYaml content = true ↔
        (goContains content "apiVersion:" = true ∧
         goContains content "kind:" = true ∧
         ∃ kind, kind ∈ GitService.k8sKinds ∧
           goContains content ("kind: " ++ kind) = true)) ∧
    GitService.isKubernetesYaml "apiVersion: v1\nkind: Widget" = false := by
  constructor
  · intro content
    unfold GitService.isKubernetesYaml GitService.requiredFields
    by_cases h : ([("apiVersion:" : String), "kind:"].all
        fun field => goContains content field) = true
    · rw [if_pos h]
      simp only [List.all_cons, List.all_nil, Bool.and_eq_true, Bool.and_true] at h
      simp [h.1, h.2, List.any_eq_true]
    · rw [if_neg h]
      simp only [List.all_cons, List.all_nil, Bool.and_eq_true, Bool.and_true] at h
      constructor
      · intro hfalse
        exact absurd hfalse (by simp)
      · rintro ⟨h1, h2, -⟩
        exact absurd ⟨h1, h2⟩ h
  · decide

/-- C3 counterexample: with the branch `main` explicitly requested, the clone
invocation contains no `-b` selector and does not mention the branch at all,
so it does not "always select exactly the branch given by the caller"; the
same holds for `master` and for the empty branch. -/
theorem c3_counterexample :
    GitService.gitCloneArgs "https://github.com/org/repo.git" "main" "/tmp/kubectl-git-repos/org-repo_1" =
      ["clone", "--depth", "1", "https://github.com/org/repo.git", "/tmp/kubectl-git-repos/org-repo_1"] ∧
    "-b" ∉ GitService.gitCloneArgs "https://github.com/org/repo.git" "main" "/tmp/kubectl-git-repos/org-repo_1" ∧
    "main" ∉ GitService.gitCloneArgs "https://github.com/org/repo.git" "main" "/tmp/kubectl-git-repos/org-repo_1" := by
  refine ⟨rfl, ?_, ?_⟩ <;> decide

/-- C3 (amended): the clone invocation always requests `--depth 1`; it passes
`-b branch` exactly when the requested branch is neither empty nor `main` nor
`master`, and for those three values the invocation names no branch, cloning
the remote default branch instead. -/
theorem c3_cloneArgs_spec (repoURL branch cloneDir : String) :
    GitService.gitCloneArgs repoURL branch cloneDir =
      (if branch != "" && branch != "main" && branch != "master" then
        ["clone", "-b", branch, "--depth", "1", repoURL, cloneDir]
      else ["clone", "--depth", "1", repoURL, cloneDir]) ∧
    "--depth" ∈ GitService.gitCloneArgs repoURL branch cloneDir ∧
    "1" ∈ GitService.gitCloneArgs repoURL branch cloneDir := by
  unfold GitService.gitCloneArgs
  refine ⟨?_, ?_, ?_⟩ <;> split <;> simp

/-- C10: the locate operation matches solely by case-insensitive filename
equality, returning the first matching walk entry with the classifier verdict
recorded in `isKubernetes` — no filtering on extension or classifier result;
in particular a `.txt` file that is not YAML and not a Kubernetes manifest is
still returned, with `isKubernetes = false`. -/
theorem c10_getSpecificYamlFile_spec :
    (∀ (files : List WalkEntry) (filename : String),
      GitService.getSpecificYamlFile files filename =
        (files.find? (fun info => goEqualFold info.name filename)).map
          (fun info =>
            { path := info.relPath, fullPath := info.fullPath,
              content := info.content, size := info.size,
              isKubernetes := GitService.isKubernetesYaml info.content })) ∧
    GitService.getSpecificYamlFile
        [{ name := "notes.txt", relPath := "notes.txt", fullPath := "/r/notes.txt",
           content := "hello world", size := 11 }] "NOTES.TXT" =
      some { path := "notes.txt", fullPath := "/r/notes.txt",
             content := "hello world", size := 11, isKubernetes := false } ∧
    GitService.isYamlFile "notes.txt" = false ∧
    GitService.isKubernetesYaml "hello world" = false := by
  refine ⟨?_, by decide, by decide, by decide⟩
  intro files filename
  induction files with
  | nil => rfl
  | cons info rest ih =>
    rw [GitService.getSpecificYamlFile, List.find?]
    by_cases h : goEqualFold info.name filename = true
    · rw [if_pos h, h]
      rfl
    · rw [if_neg h, ih]
      simp only [Bool.not_eq_true] at h
      rw [h]

/-! ### Fallback prompt parsing (ai_service.go 605-674, git_controller.go 402-472) -/

/-- `model.GitParseResult` (`Confidence float64` is modelled as `ℚ`; the only
values the fallback parsers assign are 0.5 and 0.7, both exactly
representable; `Namespace` is rendered as `nspace`). -/
structure GitParseResult where
  repoURL : String
  branch : String
  filename : String
  action : String
  dryRun : Bool
  nspace : String
  confidence : ℚ
  errorMessage : String
  deriving DecidableEq, Repr

/-- Keywords marking an apply action (identical in both parsers). -/
def applyKeywords : List String := ["적용", "배포", "생성", "apply", "deploy", "create"]

/-- Keywords marking a show action (ai_service.go only). -/
def showKeywords : List String := ["보여", "표시", "조회", "show", "display", "list"]

/-- Keywords turning on dry-run (identical in both parsers). -/
def dryRunKeywords : List String := ["dry-run", "dryrun", "테스트", "시뮬레이션", "test"]

/-- Keywords introducing a branch name (git_controller.go only). -/
def branchKeywords : List String := ["branch", "브랜치"]

/-- The host test both parsers run on each whitespace-delimited word. -/
def hostWordP (word : List Char) : Bool :=
  containsSub ("github.com".data) word || containsSub ("gitlab.com".data) word ||
    containsSub ("bitbucket.org".data) word

/-- The inline URL normalization both fallback parsers apply to the matched
word: prepend `https://` unless the word starts with the four characters
`http`, then append `.git` unless it already ends in it. -/
def addSchemeToWord (word : List Char) : List Char :=
  if !(hasPfx ("http".data) word) then "https://".data ++ word else word

/-- Second half of the inline word normalization. -/
def addGitToWord (w : List Char) : List Char :=
  if !(hasSfx (".git".data) w) then w ++ ".git".data else w

/-- The full inline word normalization of both fallback parsers. -/
def normalizeGitWord (word : List Char) : List Char :=
  addGitToWord (addSchemeToWord word)

/-- URL extraction loop shared by both fallback parsers: the first
whitespace-delimited word containing a recognized host substring, normalized;
empty when no word matches. -/
def fallbackRepoURL (prompt : String) : String :=
  match (goFields prompt).find? hostWordP with
  | some word => String.mk (normalizeGitWord word)
  | none => ""

/-- Filename extraction loop shared by both fallback parsers: the first word
ending in `.yaml` or `.yml`. -/
def fallbackFilename (prompt : String) : String :=
  match (goFields prompt).find?
      (fun word => hasSfx (".yaml".data) word || hasSfx (".yml".data) word) with
  | some word => String.mk word
  | none => ""

/-- Dry-run detection shared by both fallback parsers. -/
def fallbackDryRun (prompt : String) : Bool :=
  dryRunKeywords.any (fun keyword => goContains (goToLower prompt) keyword)

namespace AIService

/-- Action detection of `AIService.fallbackParseGitPrompt`: apply keywords,
then show keywords, then the default `show`. -/
def fallbackAction (prompt : String) : String :=
  let a1 := if applyKeywords.any (fun k => goContains (goToLower prompt) k) then "apply" else ""
  let a2 :=
    if a1 == "" then
      (if showKeywords.any (fun k => goContains (goToLower prompt) k) then "show" else a1)
    else a1
  if a2 == "" then "show" else a2

/-- `AIService.fallbackParseGitPrompt` (ai_service.go 605-674). -/
def fallbackParseGitPrompt (prompt : String) : GitParseResult :=
  { repoURL := fallbackRepoURL prompt
    branch := "main"
    filename := fallbackFilename prompt
    action := fallbackAction prompt
    dryRun := fallbackDryRun prompt
    nspace := ""
    confidence := 0.5
    errorMessage := "" }

end AIService

namespace GitController

/-- Action detection of `GitController.fallbackParseGitPrompt`: default
`show`, overwritten by `apply` when an apply keyword occurs. -/
def fallbackAction (prompt : String) : String :=
  if applyKeywords.any (fun k => goContains (goToLower prompt) k) then "apply" else "show"

/-- Confidence of `GitController.fallbackParseGitPrompt`: starts at 0.5 and is
raised to 0.7 inside the branch that finds a host-bearing word. -/
def fallbackConfidence (prompt : String) : ℚ :=
  match (goFields prompt).find? hostWordP with
  | some _ => 0.7
  | none => 0.5

/-- Branch detection of `GitController.fallbackParseGitPrompt`: for each word
containing a branch keyword (case-folded) with a successor word, the branch is
set to that successor; the inner `break` leaves the outer scan running, so the
last such word wins; default `main`. -/
def fallbackBranch (prompt : String) : String :=
  let words := goFields prompt
  String.mk (words.enum.foldl
    (fun acc p =>
      if (branchKeywords.any fun keyword => containsSub keyword.data (lowerL p.2)) &&
          decide (p.1 + 1 < words.length) then
        words.getD (p.1 + 1) []
      else acc)
    ("main".data))

/-- `GitController.fallbackParseGitPrompt` (git_controller.go 402-472). -/
def fallbackParseGitPrompt (prompt : String) : GitParseResult :=
  { repoURL := fallbackRepoURL prompt
    branch := fallbackBranch prompt
    filename := fallbackFilename prompt
    action := fallbackAction prompt
    dryRun := fallbackDryRun prompt
    nspace := ""
    confidence := fallbackConfidence prompt
    errorMessage := "" }

end GitController

theorem addGitToWord_sfx (w : List Char) :
    hasSfx (".git".data) (addGitToWord w) = true := by
  unfold addGitToWord
  by_cases h : hasSfx (".git".data) w = true
  · simp [h]
  · simp only [Bool.not_eq_true] at h
    simp [h, hasSfx_append_self]

theorem addGitToWord_pfx (p w : List Char) (h : hasPfx p w = true) :
    hasPfx p (addGitToWord w) = true := by
  unfold addGitToWord
  split
  · exact hasPfx_append_of _ _ _ h
  · exact h

theorem addGitToWord_length (w : List Char) :
    w.length ≤ (addGitToWord w).length := by
  unfold addGitToWord
  split
  · simp
  · exact Nat.le_refl _

theorem addSchemeToWord_length_pos (word : List Char) :
    0 < (addSchemeToWord word).length := by
  unfold addSchemeToWord
  by_cases h : hasPfx ("http".data) word = true
  · have hlen := hasPfx_length_le _ _ h
    have h4 : (("http".data : List Char)).length = 4 := rfl
    rw [h4] at hlen
    rw [if_neg (by simp [h])]
    omega
  · simp only [Bool.not_eq_true] at h
    rw [if_pos (by simp [h])]
    simp

theorem normalizeGitWord_ne_nil (word : List Char) : normalizeGitWord word ≠ [] := by
  have h1 := addSchemeToWord_length_pos word
  have h2 := addGitToWord_length (addSchemeToWord word)
  intro h
  unfold normalizeGitWord at h
  rw [h] at h2
  simp only [List.length_nil] at h2
  omega

theorem normalizeGitWord_scheme (word : List Char)
    (h : hasPfx ("http".data) word = false) :
    hasPfx ("https://".data) (normalizeGitWord word) = true := by
  unfold normalizeGitWord
  apply addGitToWord_pfx
  unfold addSchemeToWord
  rw [if_pos (by simp [h])]
  exact hasPfx_self_append _ _

/-- C7 counterexample: the word `httpsgithub.com/org/repo` contains the host
substring `github.com`, yet because it starts with the four characters `http`
the parser prepends no scheme: the produced repository URL carries no scheme
at all (neither `http://` nor `https://`), in both implementations. -/
theorem c7_counterexample :
    hostWordP ("httpsgithub.com/org/repo".data) = true ∧
    (AIService.fallbackParseGitPrompt "httpsgithub.com/org/repo 적용해줘").repoURL =
      "httpsgithub.com/org/repo.git" ∧
    (GitController.fallbackParseGitPrompt "httpsgithub.com/org/repo 적용해줘").repoURL =
      "httpsgithub.com/org/repo.git" ∧
    goHasPfx "httpsgithub.com/org/repo.git" "http://" = false ∧
    goHasPfx "httpsgithub.com/org/repo.git" "https://" = false := by
  refine ⟨?_, ?_, ?_, ?_, ?_⟩ <;> decide

/-- C7 (amended): whenever some whitespace-delimited token of the instruction
contains a recognized host substring, both fallback parsers produce the
normalization of the first such token: a non-empty repositoryURL ending in
`.git`, which additionally starts with `https://` whenever that token does not
already start with the four characters `http`.  The scenario instruction
`github.com/org/repo 의 app.yaml 적용해줘` parses to repositoryURL
`https://github.com/org/repo.git`, filename `app.yaml`, action `apply`,
dryRun false, in both implementations. -/
theorem c7_fallback_url (prompt : String) (word : List Char)
    (hw : (goFields prompt).find? hostWordP = some word) :
    (AIService.fallbackParseGitPrompt prompt).repoURL = String.mk (normalizeGitWord word) ∧
    (GitController.fallbackParseGitPrompt prompt).repoURL = String.mk (normalizeGitWord word) ∧
    String.mk (normalizeGitWord word) ≠ "" ∧
    goHasSfx (String.mk (normalizeGitWord word)) ".git" = true ∧
    (hasPfx ("http".data) word = false →
      goHasPfx (String.mk (normalizeGitWord word)) "https://" = true) ∧
    (AIService.fallbackParseGitPrompt "github.com/org/repo 의 app.yaml 적용해줘").repoURL =
      "https://github.com/org/repo.git" ∧
    (AIService.fallbackParseGitPrompt "github.com/org/repo 의 app.yaml 적용해줘").filename =
      "app.yaml" ∧
    (AIService.fallbackParseGitPrompt "github.com/org/repo 의 app.yaml 적용해줘").action =
      "apply" ∧
    (AIService.fallbackParseGitPrompt "github.com/org/repo 의 app.yaml 적용해줘").dryRun =
      false ∧
    (GitController.fallbackParseGitPrompt "github.com/org/repo 의 app.yaml 적용해줘").repoURL =
      "https://github.com/org/repo.git" ∧
    (GitController.fallbackParseGitPrompt "github.com/org/repo 의 app.yaml 적용해줘").filename =
      "app.yaml" ∧
    (GitController.fallbackParseGitPrompt "github.com/org/repo 의 app.yaml 적용해줘").action =
      "apply" ∧
    (GitController.fallbackParseGitPrompt "github.com/org/repo 의 app.yaml 적용해줘").dryRun =
      false := by
  have h1 : fallbackRepoURL prompt = String.mk (normalizeGitWord word) := by
    unfold fallbackRepoURL
    rw [hw]
  refine ⟨h1, h1, ?_, ?_, ?_, by decide, by decide, by decide, by decide,
    by decide, by decide, by decide, by decide⟩
  · intro h
    have hd : normalizeGitWord word = [] := congrArg String.data h
    exact normalizeGitWord_ne_nil word hd
  · exact addGitToWord_sfx (addSchemeToWord word)
  · intro h
    exact normalizeGitWord_scheme word h

theorem c7_fallback_url_witness :
    (goFields "github.com/org/repo 의 app.yaml 적용해줘").find? hostWordP =
      some ("github.com/org/repo".data) ∧
    ((AIService.fallbackParseGitPrompt "github.com/org/repo 의 app.yaml 적용해줘").repoURL =
      String.mk (normalizeGitWord ("github.com/org/repo".data))) :=
  ⟨by decide,
   (c7_fallback_url "github.com/org/repo 의 app.yaml 적용해줘"
     ("github.com/org/repo".data) (by decide)).1⟩

/-- C8 counterexample: the controller fallback parser's confidence is not a
fixed constant in the 0.3–0.5 range — it is 0.7 (outside the range) when a
host-bearing word is found, and 0.5 otherwise. -/
theorem c8_counterexample :
    (GitController.fallbackParseGitPrompt "github.com/org/repo 적용해줘").confidence = 0.7 ∧
    ¬((GitController.fallbackParseGitPrompt "github.com/org/repo 적용해줘").confidence ≤ 0.5) ∧
    (GitController.fallbackParseGitPrompt "보여줘").confidence = 0.5 := by
  have h07 : (GitController.fallbackParseGitPrompt "github.com/org/repo 적용해줘").confidence = 0.7 := rfl
  have h05 : (GitController.fallbackParseGitPrompt "보여줘").confidence = 0.5 := rfl
  refine ⟨h07, ?_, h05⟩
  rw [h07]
  norm_num

/-- C8 (amended): the ai_service fallback parser's confidence is the fixed
constant 0.5, which lies in the 0.3–0.5 range; the git_controller fallback
parser's confidence is 0.5 when no host-bearing word is found and 0.7 (above
the range) when one is found. -/
theorem c8_fallback_confidence (prompt : String) :
    (AIService.fallbackParseGitPrompt prompt).confidence = 0.5 ∧
    (GitController.fallbackParseGitPrompt prompt).confidence =
      (if ((goFields prompt).find? hostWordP).isSome then (0.7 : ℚ) else 0.5) ∧
    (0.3 : ℚ) ≤ (AIService.fallbackParseGitPrompt prompt).confidence ∧
    (AIService.fallbackParseGitPrompt prompt).confidence ≤ (0.5 : ℚ) := by
  refine ⟨rfl, ?_, ?_, ?_⟩
  · show GitController.fallbackConfidence prompt = _
    unfold GitController.fallbackConfidence
    cases h : (goFields prompt).find? hostWordP <;> simp [h]
  · show (0.3 : ℚ) ≤ 0.5
    norm_num
  · show (0.5 : ℚ) ≤ 0.5
    norm_num

/-! ### ProcessGitWithAI (git_controller.go 171-250) -/

/-- `model.GitYamlRequest`. -/
structure GitYamlRequest where
  repoURL : String
  branch : String
  filename : String
  deriving DecidableEq, Repr

/-- `model.GitApplyRequest` (`Namespace` rendered as `nspace`). -/
structure GitApplyRequest where
  repoURL : String
  branch : String
  filename : String
  nspace : String
  dryRun : Bool
  deriving DecidableEq, Repr

/-- An outward call the handler performs: `executeYamlRetrieval` (which clones
the repository and reads YAML) or `executeYamlApplication` (which clones and
runs kubectl against the cluster). -/
inductive ExecCall where
  | retrieval : GitYamlRequest → ExecCall
  | application : GitApplyRequest → ExecCall
  deriving DecidableEq, Repr

/-- Outcome the HTTP handler writes: `http.Error` with a status code, or a
JSON success body with a message. -/
inductive HttpOutcome where
  | httpError : Nat → String → HttpOutcome
  | jsonOk : String → HttpOutcome
  deriving DecidableEq, Repr

namespace GitController

/-- `GitController.ProcessGitWithAI` (git_controller.go 171-250), from the
point where the request body is decoded.  `parse` is `parseGitPromptWithAI`
(model phase plus fallback phase), `retrieve`/`applyExec` are the executors
that clone the repository and touch the cluster; both are oracles.  The second
component lists the executor calls actually performed. -/
def processGitWithAI {α β : Type}
    (parse : String → Except String GitParseResult)
    (retrieve : GitYamlRequest → Except String α)
    (applyExec : GitApplyRequest → Except String β)
    (prompt : String) : HttpOutcome × List ExecCall :=
  if goTrimSpace prompt == "" then
    (.httpError 400 "프롬프트는 필수입니다", [])
  else
    match parse prompt with
    | .error e => (.httpError 500 ("AI 프롬프트 파싱 실패: " ++ e), [])
    | .ok parseResult =>
      if parseResult.repoURL == "" then
        (.httpError 400 "레포지토리 URL을 찾을 수 없습니다", [])
      else if parseResult.action == "show" || parseResult.action == "list" ||
          parseResult.action == "display" then
        let yamlRequest : GitYamlRequest :=
          { repoURL := parseResult.repoURL, branch := parseResult.branch,
            filename := parseResult.filename }
        match retrieve yamlRequest with
        | .error e => (.httpError 500 ("YAML 조회 실패: " ++ e), [.retrieval yamlRequest])
        | .ok _ => (.jsonOk "Git 레포지토리 YAML 조회 완료", [.retrieval yamlRequest])
      else if parseResult.action == "apply" || parseResult.action == "deploy" ||
          parseResult.action == "create" then
        let applyRequest : GitApplyRequest :=
          { repoURL := parseResult.repoURL, branch := parseResult.branch,
            filename := parseResult.filename, nspace := parseResult.nspace,
            dryRun := parseResult.dryRun }
        match applyExec applyRequest with
        | .error e => (.httpError 500 ("YAML 적용 실패: " ++ e), [.application applyRequest])
        | .ok _ =>
          if parseResult.dryRun then
            (.jsonOk "Git 레포지토리 YAML dry-run 완료", [.application applyRequest])
          else
            (.jsonOk "Git 레포지토리 YAML 적용 완료", [.application applyRequest])
      else
        (.httpError 400 ("지원하지 않는 액션입니다: " ++ parseResult.action), [])

end GitController

/-- C9: when the resolved repositoryURL is empty after the model phase and the
fallback phase, the pipeline answers the caller with an HTTP 400 error and
performs no executor call at all — no repository clone and no cluster
execution. -/
theorem c9_empty_repo_terminal {α β : Type}
    (parse : String → Except String GitParseResult)
    (retrieve : GitYamlRequest → Except String α)
    (applyExec : GitApplyRequest → Except String β)
    (prompt : String) (parseResult : GitParseResult)
    (hprompt : goTrimSpace prompt ≠ "")
    (hparse : parse prompt = .ok parseResult)
    (hurl : parseResult.repoURL = "") :
    GitController.processGitWithAI parse retrieve applyExec prompt =
      (.httpError 400 "레포지토리 URL을 찾을 수 없습니다", []) := by
  unfold GitController.processGitWithAI
  rw [if_neg (by simp [hprompt]), hparse]
  simp [hurl]

/-- Parse oracle for the C9 witness: both phases resolve, but to an empty
repository URL. -/
def witEmptyParse : String → Except String GitParseResult :=
  fun _ => .ok { repoURL := "", branch := "main", filename := "", action := "show",
                 dryRun := false, nspace := "", confidence := 0.3, errorMessage := "" }

theorem c9_empty_repo_terminal_witness :
    goTrimSpace "yaml 보여줘" ≠ "" ∧
    GitController.processGitWithAI witEmptyParse
        (fun _ => Except.ok ()) (fun _ => Except.ok ()) "yaml 보여줘" =
      (.httpError 400 "레포지토리 URL을 찾을 수 없습니다", []) :=
  ⟨by decide,
   c9_empty_repo_terminal witEmptyParse (fun _ => Except.ok ()) (fun _ => Except.ok ())
     "yaml 보여줘" _ (by decide) rfl rfl⟩

end Mykube
